import Mathlib

/-!
Verification of the chunk-and-index pipeline of AcademicIntelligenceAI.

The definitions below are a shallow embedding of
`src/academic_intelligence_ai/transform/chunker.py` (the sliding-window
chunker) and `src/academic_intelligence_ai/load/load_documents.py` (the
load run: SQLite inserts, batched embedding with zero-vector fallback,
FAISS index construction and persistence).  Python strings are modelled
as `List Char`, floating-point vectors as `List ℚ` (their numeric values
are opaque to every property proved here), and the external
`SentenceTransformer.encode` capability as an oracle
`List (List Char) → Option (List (List ℚ))` (`none` = the batch raised).
-/

namespace AcademicAI

/-- Whitespace test used by Python's `str.strip` (ASCII whitespace). -/
def pyIsSpace (c : Char) : Bool :=
  c = ' ' || c = '\t' || c = '\n' || c = '\r' || c = '\x0b' || c = '\x0c'

/-- Python's `str.strip()`: drop leading and trailing whitespace. -/
def pyStrip (s : List Char) : List Char :=
  ((s.dropWhile pyIsSpace).reverse.dropWhile pyIsSpace).reverse

/-- One chunk record produced by `chunk_text` (chunker.py, the dict with
keys `chunk_index`, `text`, `char_offset`, `chunk_length`). -/
structure Chunk where
  chunk_index : Nat
  text : List Char
  char_offset : Nat
  chunk_length : Nat
deriving DecidableEq

/-- Embeds chunker.py lines 54-56: `boundary = end; while boundary > start
and text[boundary] != " ": boundary -= 1`.  Walks `b` down from the
provisional end until it hits a space character or reaches `start`.
All call sites have `b < text.length`, so the `getD` default is inert. -/
def snapBack (text : List Char) (start : Nat) : Nat → Nat
  | 0 => 0
  | b + 1 =>
    if b + 1 ≤ start then b + 1
    else if text.getD (b + 1) ' ' = ' ' then b + 1
    else snapBack text start b

/-- Embeds chunker.py lines 54-60: the word-boundary snap together with
the hard-cut fallback `if boundary == start: boundary = end`. -/
def cutBoundary (text : List Char) (start e : Nat) : Nat :=
  if snapBack text start e = start then e else snapBack text start e

/-- Embeds chunker.py lines 71-73: `step = boundary - start - chunk_overlap;
if step <= 0: step = 1` (Python ints are signed, hence the `Int` detour). -/
def advanceStep (boundary start overlap : Nat) : Nat :=
  (if (boundary : Int) - (start : Int) - (overlap : Int) ≤ 0 then 1
   else (boundary : Int) - (start : Int) - (overlap : Int)).toNat

/-- Embeds the guarded append of chunker.py lines 43-50 and 62-69:
`if len(chunk) >= min_chunk_size: chunks.append({...})` with
`chunk_index = len(chunks)`, `char_offset = start`,
`chunk_length = len(chunk)`. -/
def emitChunk (chunks : List Chunk) (c : List Char) (offset ms : Nat) : List Chunk :=
  if ms ≤ c.length then chunks ++ [⟨chunks.length, c, offset, c.length⟩] else chunks

theorem advanceStep_pos (b s o : Nat) : 0 < advanceStep b s o := by
  unfold advanceStep
  split <;> omega

/-- Embeds the `while start < len(text)` loop of chunker.py lines 38-74. -/
def chunkLoop (text : List Char) (cs co ms start : Nat) (chunks : List Chunk) :
    List Chunk :=
  if h : start < text.length then
    if text.length ≤ start + cs then
      emitChunk chunks (pyStrip (text.drop start)) start ms
    else
      chunkLoop text cs co ms
        (start + advanceStep (cutBoundary text start (start + cs)) start co)
        (emitChunk chunks
          (pyStrip ((text.drop start).take (cutBoundary text start (start + cs) - start)))
          start ms)
  else chunks
termination_by text.length - start
decreasing_by
  have := advanceStep_pos (cutBoundary text start (start + cs)) start co
  omega

/-- Counts executions of the loop body of chunker.py lines 38-74 (the
control flow of `chunkLoop`, which `min_chunk_size` does not affect). -/
def chunkLoopSteps (text : List Char) (cs co start : Nat) : Nat :=
  if h : start < text.length then
    if text.length ≤ start + cs then 1
    else
      1 + chunkLoopSteps text cs co
        (start + advanceStep (cutBoundary text start (start + cs)) start co)
  else 0
termination_by text.length - start
decreasing_by
  have := advanceStep_pos (cutBoundary text start (start + cs)) start co
  omega

/-- Embeds `chunk_text` of chunker.py lines 21-76: the short-text path
(lines 30-33) followed by the sliding-window loop. -/
def chunk_text (text : List Char) (cs co ms : Nat) : List Chunk :=
  if text.length ≤ cs then
    if ms ≤ text.length then [⟨0, text, 0, text.length⟩] else []
  else chunkLoop text cs co ms 0 []

theorem pyStrip_eq_rdropWhile (s : List Char) :
    pyStrip s = List.rdropWhile pyIsSpace (List.dropWhile pyIsSpace s) := rfl

theorem pyStrip_length_le (s : List Char) : (pyStrip s).length ≤ s.length := by
  unfold pyStrip
  calc ((s.dropWhile pyIsSpace).reverse.dropWhile pyIsSpace).reverse.length
      = ((s.dropWhile pyIsSpace).reverse.dropWhile pyIsSpace).length := by
        rw [List.length_reverse]
    _ ≤ (s.dropWhile pyIsSpace).reverse.length :=
        (List.dropWhile_sublist pyIsSpace).length_le
    _ = (s.dropWhile pyIsSpace).length := by rw [List.length_reverse]
    _ ≤ s.length := (List.dropWhile_sublist pyIsSpace).length_le

theorem dropWhile_rdropWhile_dropWhile (p : Char → Bool) (l : List Char) :
    List.dropWhile p (List.rdropWhile p (List.dropWhile p l))
      = List.rdropWhile p (List.dropWhile p l) := by
  rcases hm : List.rdropWhile p (List.dropWhile p l) with _ | ⟨a, t⟩
  · simp
  · rw [List.dropWhile_cons]
    obtain ⟨u, hu⟩ := List.rdropWhile_prefix p (List.dropWhile p l)
    rw [hm] at hu
    have hne : List.dropWhile p l ≠ [] := by rw [← hu]; simp
    have hh : (List.dropWhile p l).head? = some a := by rw [← hu]; rfl
    have hnot : p a = false := by
      have h1 := List.head_dropWhile_not p l hne
      have h2 : (List.dropWhile p l).head hne = a := by
        have h3 := List.head?_eq_head hne
        rw [hh] at h3
        exact (Option.some.inj h3).symm
      rwa [h2] at h1
    simp [hnot]

theorem pyStrip_idem (s : List Char) : pyStrip (pyStrip s) = pyStrip s := by
  rw [pyStrip_eq_rdropWhile, pyStrip_eq_rdropWhile, dropWhile_rdropWhile_dropWhile,
    List.rdropWhile_idempotent]

theorem snapBack_le (text : List Char) (start : Nat) : ∀ b, snapBack text start b ≤ b := by
  intro b
  induction b with
  | zero => exact Nat.le_refl 0
  | succ b ih =>
    unfold snapBack
    split
    · exact Nat.le_refl _
    · split
      · exact Nat.le_refl _
      · exact Nat.le_trans ih (Nat.le_succ b)

theorem snapBack_ge (text : List Char) (start : Nat) :
    ∀ b, start ≤ b → start ≤ snapBack text start b := by
  intro b
  induction b with
  | zero => intro h; simpa [snapBack] using h
  | succ b ih =>
    intro h
    unfold snapBack
    split
    · exact h
    · split
      · exact h
      · exact ih (by omega)

theorem snapBack_no_space_above (text : List Char) (start : Nat) :
    ∀ b j, snapBack text start b < j → j ≤ b → ¬ text.getD j ' ' = ' ' := by
  intro b
  induction b with
  | zero => intro j h1 h2; omega
  | succ b ih =>
    intro j h1 h2
    unfold snapBack at h1
    split at h1
    · omega
    · split at h1
      · omega
      · rcases Nat.lt_or_ge j (b + 1) with hj | hj
        · exact ih j h1 (by omega)
        · have : j = b + 1 := by omega
          subst this
          assumption

theorem snapBack_stops (text : List Char) (start : Nat) :
    ∀ b, start < snapBack text start b → text.getD (snapBack text start b) ' ' = ' ' := by
  intro b
  induction b with
  | zero =>
    intro h
    rw [show snapBack text start 0 = 0 from rfl] at h
    omega
  | succ b ih =>
    intro h
    unfold snapBack at h ⊢
    by_cases h1 : b + 1 ≤ start
    · rw [if_pos h1] at h
      omega
    · rw [if_neg h1] at h ⊢
      by_cases h2 : text.getD (b + 1) ' ' = ' '
      · rw [if_pos h2] at h ⊢
        exact h2
      · rw [if_neg h2] at h ⊢
        exact ih h

theorem cutBoundary_le (text : List Char) (start e : Nat) (h : start ≤ e) :
    cutBoundary text start e ≤ e := by
  unfold cutBoundary
  split
  · exact Nat.le_refl e
  · exact snapBack_le text start e

theorem chunkLoop_stop (text : List Char) (cs co ms start : Nat) (chunks : List Chunk)
    (h : ¬ start < text.length) :
    chunkLoop text cs co ms start chunks = chunks := by
  unfold chunkLoop
  rw [dif_neg h]

theorem chunkLoop_last (text : List Char) (cs co ms start : Nat) (chunks : List Chunk)
    (h1 : start < text.length) (h2 : text.length ≤ start + cs) :
    chunkLoop text cs co ms start chunks
      = emitChunk chunks (pyStrip (text.drop start)) start ms := by
  unfold chunkLoop
  rw [dif_pos h1, if_pos h2]

theorem chunkLoop_rec (text : List Char) (cs co ms start : Nat) (chunks : List Chunk)
    (h1 : start < text.length) (h2 : ¬ text.length ≤ start + cs) :
    chunkLoop text cs co ms start chunks
      = chunkLoop text cs co ms
          (start + advanceStep (cutBoundary text start (start + cs)) start co)
          (emitChunk chunks
            (pyStrip ((text.drop start).take (cutBoundary text start (start + cs) - start)))
            start ms) := by
  conv_lhs => rw [chunkLoop]
  rw [dif_pos h1, if_neg h2]

theorem chunkLoopSteps_stop (text : List Char) (cs co start : Nat)
    (h : ¬ start < text.length) : chunkLoopSteps text cs co start = 0 := by
  unfold chunkLoopSteps
  rw [dif_neg h]

theorem chunkLoopSteps_last (text : List Char) (cs co start : Nat)
    (h1 : start < text.length) (h2 : text.length ≤ start + cs) :
    chunkLoopSteps text cs co start = 1 := by
  unfold chunkLoopSteps
  rw [dif_pos h1, if_pos h2]

theorem chunkLoopSteps_rec (text : List Char) (cs co start : Nat)
    (h1 : start < text.length) (h2 : ¬ text.length ≤ start + cs) :
    chunkLoopSteps text cs co start
      = 1 + chunkLoopSteps text cs co
          (start + advanceStep (cutBoundary text start (start + cs)) start co) := by
  conv_lhs => rw [chunkLoopSteps]
  rw [dif_pos h1, if_neg h2]

theorem emitChunk_sub (chunks : List Chunk) (c : List Char) (off ms : Nat) :
    ∀ x ∈ emitChunk chunks c off ms,
      x ∈ chunks ∨ (x = ⟨chunks.length, c, off, c.length⟩ ∧ ms ≤ c.length) := by
  intro x hx
  unfold emitChunk at hx
  split at hx
  · rcases List.mem_append.mp hx with h | h
    · exact Or.inl h
    · exact Or.inr ⟨by simpa using h, by assumption⟩
  · exact Or.inl hx

theorem emitChunk_indices (chunks : List Chunk) (c : List Char) (off ms : Nat)
    (h : chunks.map Chunk.chunk_index = List.range chunks.length) :
    (emitChunk chunks c off ms).map Chunk.chunk_index
      = List.range (emitChunk chunks c off ms).length := by
  unfold emitChunk
  split
  · simp [h, List.range_succ]
  · exact h

theorem emitChunk_offsets (chunks : List Chunk) (c : List Char) (off ms : Nat)
    (h1 : (chunks.map Chunk.char_offset).Chain' (· < ·))
    (h2 : ∀ x ∈ chunks, x.char_offset < off) :
    ((emitChunk chunks c off ms).map Chunk.char_offset).Chain' (· < ·) := by
  unfold emitChunk
  split
  · rw [List.map_append, List.chain'_append]
    refine ⟨h1, by simp, ?_⟩
    intro x hx y hy
    simp only [List.map_cons, List.map_nil, List.head?_cons, Option.mem_def,
      Option.some.injEq] at hy
    obtain ⟨hgl, hxeq⟩ := List.mem_getLast?_eq_getLast hx
    have hmem : x ∈ chunks.map Chunk.char_offset := hxeq ▸ List.getLast_mem hgl
    obtain ⟨ch, hch, hcho⟩ := List.mem_map.mp hmem
    subst hy
    rw [← hcho]
    exact h2 ch hch
  · exact h1

/-- Invariant carried through the sliding-window loop: every accumulated
chunk has `chunk_length` equal to the length of its `text`. -/
theorem chunkLoop_len_eq (text : List Char) (cs co ms : Nat) :
    ∀ start chunks, (∀ x ∈ chunks, x.chunk_length = x.text.length) →
      ∀ x ∈ chunkLoop text cs co ms start chunks, x.chunk_length = x.text.length := by
  intro start chunks
  induction start, chunks using chunkLoop.induct text cs co ms with
  | case1 start chunks h1 h2 =>
    intro hinv x hx
    rw [chunkLoop_last text cs co ms start chunks h1 h2] at hx
    rcases emitChunk_sub _ _ _ _ x hx with h | ⟨h, _⟩
    · exact hinv x h
    · rw [h]
  | case2 start chunks h1 h2 ih =>
    intro hinv x hx
    rw [chunkLoop_rec text cs co ms start chunks h1 h2] at hx
    refine ih ?_ x hx
    intro y hy
    rcases emitChunk_sub _ _ _ _ y hy with h | ⟨h, _⟩
    · exact hinv y h
    · rw [h]
  | case3 start chunks h1 =>
    intro hinv x hx
    rw [chunkLoop_stop text cs co ms start chunks h1] at hx
    exact hinv x hx

/-- Invariant carried through the sliding-window loop: every accumulated
chunk's text fits in the window width `cs`. -/
theorem chunkLoop_text_le (text : List Char) (cs co ms : Nat) :
    ∀ start chunks, (∀ x ∈ chunks, x.text.length ≤ cs) →
      ∀ x ∈ chunkLoop text cs co ms start chunks, x.text.length ≤ cs := by
  intro start chunks
  induction start, chunks using chunkLoop.induct text cs co ms with
  | case1 start chunks h1 h2 =>
    intro hinv x hx
    rw [chunkLoop_last text cs co ms start chunks h1 h2] at hx
    rcases emitChunk_sub _ _ _ _ x hx with h | ⟨h, _⟩
    · exact hinv x h
    · rw [h]
      show (pyStrip (text.drop start)).length ≤ cs
      have hs := pyStrip_length_le (text.drop start)
      rw [List.length_drop] at hs
      omega
  | case2 start chunks h1 h2 ih =>
    intro hinv x hx
    rw [chunkLoop_rec text cs co ms start chunks h1 h2] at hx
    refine ih ?_ x hx
    intro y hy
    rcases emitChunk_sub _ _ _ _ y hy with h | ⟨h, _⟩
    · exact hinv y h
    · rw [h]
      show (pyStrip ((text.drop start).take (cutBoundary text start (start + cs) - start))).length ≤ cs
      have hs := pyStrip_length_le ((text.drop start).take (cutBoundary text start (start + cs) - start))
      have ht : ((text.drop start).take (cutBoundary text start (start + cs) - start)).length
          ≤ cutBoundary text start (start + cs) - start := by
        rw [List.length_take]
        omega
      have hb : cutBoundary text start (start + cs) ≤ start + cs :=
        cutBoundary_le text start (start + cs) (by omega)
      omega
  | case3 start chunks h1 =>
    intro hinv x hx
    rw [chunkLoop_stop text cs co ms start chunks h1] at hx
    exact hinv x hx

/-- Invariant carried through the sliding-window loop: accumulated
`chunk_index` fields are exactly `0, 1, ...` in order. -/
theorem chunkLoop_indices (text : List Char) (cs co ms : Nat) :
    ∀ start chunks, chunks.map Chunk.chunk_index = List.range chunks.length →
      (chunkLoop text cs co ms start chunks).map Chunk.chunk_index
        = List.range (chunkLoop text cs co ms start chunks).length := by
  intro start chunks
  induction start, chunks using chunkLoop.induct text cs co ms with
  | case1 start chunks h1 h2 =>
    intro hinv
    rw [chunkLoop_last text cs co ms start chunks h1 h2]
    exact emitChunk_indices _ _ _ _ hinv
  | case2 start chunks h1 h2 ih =>
    intro hinv
    rw [chunkLoop_rec text cs co ms start chunks h1 h2]
    exact ih (emitChunk_indices _ _ _ _ hinv)
  | case3 start chunks h1 =>
    intro hinv
    rw [chunkLoop_stop text cs co ms start chunks h1]
    exact hinv

/-- Invariant carried through the sliding-window loop: accumulated
`char_offset` fields are strictly increasing and all below `start`. -/
theorem chunkLoop_offsets (text : List Char) (cs co ms : Nat) :
    ∀ start chunks,
      (chunks.map Chunk.char_offset).Chain' (· < ·) →
      (∀ x ∈ chunks, x.char_offset < start) →
      ((chunkLoop text cs co ms start chunks).map Chunk.char_offset).Chain' (· < ·) := by
  intro start chunks
  induction start, chunks using chunkLoop.induct text cs co ms with
  | case1 start chunks h1 h2 =>
    intro hc hlt
    rw [chunkLoop_last text cs co ms start chunks h1 h2]
    exact emitChunk_offsets _ _ _ _ hc hlt
  | case2 start chunks h1 h2 ih =>
    intro hc hlt
    rw [chunkLoop_rec text cs co ms start chunks h1 h2]
    refine ih (emitChunk_offsets _ _ _ _ hc hlt) ?_
    intro y hy
    have hstep := advanceStep_pos (cutBoundary text start (start + cs)) start co
    rcases emitChunk_sub _ _ _ _ y hy with h | ⟨h, _⟩
    · have := hlt y h
      omega
    · rw [h]
      simpa using hstep
  | case3 start chunks h1 =>
    intro hc hlt
    rw [chunkLoop_stop text cs co ms start chunks h1]
    exact hc

/-- Invariant carried through the sliding-window loop: every accumulated
chunk is already stripped and its text has length at least `ms`. -/
theorem chunkLoop_minsize (text : List Char) (cs co ms : Nat) :
    ∀ start chunks,
      (∀ x ∈ chunks, x.text = pyStrip x.text ∧ ms ≤ x.text.length) →
      ∀ x ∈ chunkLoop text cs co ms start chunks,
        x.text = pyStrip x.text ∧ ms ≤ x.text.length := by
  intro start chunks
  induction start, chunks using chunkLoop.induct text cs co ms with
  | case1 start chunks h1 h2 =>
    intro hinv x hx
    rw [chunkLoop_last text cs co ms start chunks h1 h2] at hx
    rcases emitChunk_sub _ _ _ _ x hx with h | ⟨h, hg⟩
    · exact hinv x h
    · rw [h]
      exact ⟨(pyStrip_idem (text.drop start)).symm, hg⟩
  | case2 start chunks h1 h2 ih =>
    intro hinv x hx
    rw [chunkLoop_rec text cs co ms start chunks h1 h2] at hx
    refine ih ?_ x hx
    intro y hy
    rcases emitChunk_sub _ _ _ _ y hy with h | ⟨h, hg⟩
    · exact hinv y h
    · rw [h]
      exact ⟨(pyStrip_idem _).symm, hg⟩
  | case3 start chunks h1 =>
    intro hinv x hx
    rw [chunkLoop_stop text cs co ms start chunks h1] at hx
    exact hinv x hx

theorem chunkLoopSteps_le (text : List Char) (cs co : Nat) :
    ∀ start, chunkLoopSteps text cs co start ≤ text.length - start := by
  intro start
  induction start using chunkLoopSteps.induct text cs co with
  | case1 start h1 h2 =>
    rw [chunkLoopSteps_last text cs co start h1 h2]
    omega
  | case2 start h1 h2 ih =>
    rw [chunkLoopSteps_rec text cs co start h1 h2]
    have hstep := advanceStep_pos (cutBoundary text start (start + cs)) start co
    omega
  | case3 start h1 =>
    rw [chunkLoopSteps_stop text cs co start h1]
    omega

/-- Input showing that the short-text path of `chunk_text` checks the
untrimmed length: `"ab   "` (length 5). -/
def c3Text : List Char := ['a', 'b', ' ', ' ', ' ']

/-- C3 counterexample: with text `"ab   "` (length 5), `chunk_size = 10`,
`chunk_overlap = 0`, `min_chunk_size = 5`, the short-text path returns the
whole untrimmed text as one chunk because its raw length 5 passes the
check, yet its whitespace-stripped length is 2 < 5.  So the claim that no
returned chunk has trimmed length below `min_chunk_size` is false. -/
theorem chunk_min_size_cex :
    ¬ (∀ c ∈ chunk_text c3Text 10 0 5, 5 ≤ (pyStrip c.text).length) := by
  decide

/-- C3 (amended): every chunk returned by `chunk_text` has raw text length
at least `min_chunk_size`; in the sliding-window path (`len(text) >
chunk_size`) chunks are emitted already stripped, so their trimmed length
is also at least `min_chunk_size`; and when `len(text) ≤ chunk_size` with
`len(text) < min_chunk_size` the result is the empty list.  (The
short-text path checks and returns the untrimmed text, so only its raw
length is guaranteed.) -/
theorem chunk_min_size_enforced (text : List Char) (cs co ms : Nat) (hcs : 0 < cs) :
    (∀ c ∈ chunk_text text cs co ms, ms ≤ c.text.length) ∧
    (cs < text.length → ∀ c ∈ chunk_text text cs co ms, ms ≤ (pyStrip c.text).length) ∧
    (text.length ≤ cs → text.length < ms → chunk_text text cs co ms = []) := by
  refine ⟨?_, ?_, ?_⟩
  · intro c hc
    unfold chunk_text at hc
    by_cases hlen : text.length ≤ cs
    · rw [if_pos hlen] at hc
      by_cases hms : ms ≤ text.length
      · rw [if_pos hms] at hc
        simp only [List.mem_singleton] at hc
        rw [hc]
        exact hms
      · rw [if_neg hms] at hc
        simp at hc
    · rw [if_neg hlen] at hc
      exact (chunkLoop_minsize text cs co ms 0 [] (by simp) c hc).2
  · intro hlt c hc
    unfold chunk_text at hc
    rw [if_neg (by omega)] at hc
    have h := chunkLoop_minsize text cs co ms 0 [] (by simp) c hc
    rw [← h.1]
    exact h.2
  · intro h1 h2
    unfold chunk_text
    rw [if_pos h1, if_neg (by omega)]

/-- Witness for `chunk_min_size_enforced` at text `"abc"`, chunk_size 2,
overlap 0, min size 1. -/
theorem chunk_min_size_enforced_witness :
    0 < 2 ∧
    ((∀ c ∈ chunk_text ['a', 'b', 'c'] 2 0 1, 1 ≤ c.text.length) ∧
     (2 < (['a', 'b', 'c'] : List Char).length →
        ∀ c ∈ chunk_text ['a', 'b', 'c'] 2 0 1, 1 ≤ (pyStrip c.text).length) ∧
     ((['a', 'b', 'c'] : List Char).length ≤ 2 → (['a', 'b', 'c'] : List Char).length < 1 →
        chunk_text ['a', 'b', 'c'] 2 0 1 = [])) :=
  ⟨by decide, chunk_min_size_enforced ['a', 'b', 'c'] 2 0 1 (by decide)⟩

/-- Input showing the space-only boundary walk: `"ab\ncdefgh"`, where the
only whitespace in the first window is a newline. -/
def c4Text : List Char := ['a', 'b', '\n', 'c', 'd', 'e', 'f', 'g', 'h']

/-- C4 counterexample: in `"ab\ncdefgh"` with window `start = 0`,
`end = 4`, position 2 holds a whitespace character (`\n`), yet the
backward walk (which only stops at `" "`, a plain space) runs down to
`start` and the code falls back to a hard cut at `end = 4`.  So "only
when no whitespace exists between start and end does it fall back to a
hard cut" is false: the walk looks for a space character, not general
whitespace. -/
theorem word_boundary_cut_cex :
    pyIsSpace (c4Text.getD 2 ' ') = true ∧ (0:Nat) < 2 ∧ (2:Nat) ≤ 4 ∧
    (4:Nat) < c4Text.length ∧ snapBack c4Text 0 4 = 0 ∧ cutBoundary c4Text 0 4 = 4 := by
  decide

/-- C4 (amended): the cut position is found by walking the provisional
end backward until a space character `" "` (not general whitespace) is
found: `snapBack` lands in `[start, e]`; if no space exists at positions
`start+1 .. e` the walk reaches `start` and the code hard-cuts exactly at
`e = start + chunk_size`; if some space exists there, the walk stops at
the largest such position (strictly after `start`) and that position is
the cut, so the pre-trim segment ends right before a space. -/
theorem word_boundary_cut (text : List Char) (start e : Nat) (hse : start ≤ e)
    (he : e < text.length) :
    (start ≤ snapBack text start e ∧ snapBack text start e ≤ e) ∧
    ((∀ j, start < j → j ≤ e → text.getD j ' ' ≠ ' ') →
      snapBack text start e = start ∧ cutBoundary text start e = e) ∧
    (∀ j, start < j → j ≤ e → text.getD j ' ' = ' ' →
      start < snapBack text start e ∧
      text.getD (snapBack text start e) ' ' = ' ' ∧
      j ≤ snapBack text start e ∧
      cutBoundary text start e = snapBack text start e) := by
  refine ⟨⟨snapBack_ge text start e hse, snapBack_le text start e⟩, ?_, ?_⟩
  · intro hno
    have hle := snapBack_le text start e
    have hge := snapBack_ge text start e hse
    have heq : snapBack text start e = start := by
      by_contra hne
      have hlt : start < snapBack text start e := by omega
      exact hno _ hlt hle (snapBack_stops text start e hlt)
    refine ⟨heq, ?_⟩
    unfold cutBoundary
    rw [if_pos heq]
  · intro j hj1 hj2 hsp
    have hnot : ¬ snapBack text start e < j := fun hlt =>
      snapBack_no_space_above text start e j hlt hj2 hsp
    have hge := snapBack_ge text start e hse
    have hjle : j ≤ snapBack text start e := by omega
    have hlt : start < snapBack text start e := by omega
    refine ⟨hlt, snapBack_stops text start e hlt, hjle, ?_⟩
    unfold cutBoundary
    rw [if_neg (by omega)]

/-- Witness for `word_boundary_cut` at text `"a bc"`, `start = 0`, `e = 2`. -/
theorem word_boundary_cut_witness :
    (0:Nat) ≤ 2 ∧ (2:Nat) < (['a', ' ', 'b', 'c'] : List Char).length ∧
    ((0 ≤ snapBack ['a', ' ', 'b', 'c'] 0 2 ∧ snapBack ['a', ' ', 'b', 'c'] 0 2 ≤ 2) ∧
     ((∀ j, 0 < j → j ≤ 2 → (['a', ' ', 'b', 'c'] : List Char).getD j ' ' ≠ ' ') →
       snapBack ['a', ' ', 'b', 'c'] 0 2 = 0 ∧ cutBoundary ['a', ' ', 'b', 'c'] 0 2 = 2) ∧
     (∀ j, 0 < j → j ≤ 2 → (['a', ' ', 'b', 'c'] : List Char).getD j ' ' = ' ' →
       0 < snapBack ['a', ' ', 'b', 'c'] 0 2 ∧
       (['a', ' ', 'b', 'c'] : List Char).getD (snapBack ['a', ' ', 'b', 'c'] 0 2) ' ' = ' ' ∧
       j ≤ snapBack ['a', ' ', 'b', 'c'] 0 2 ∧
       cutBoundary ['a', ' ', 'b', 'c'] 0 2 = snapBack ['a', ' ', 'b', 'c'] 0 2)) :=
  ⟨by decide, by decide, word_boundary_cut ['a', ' ', 'b', 'c'] 0 2 (by decide) (by decide)⟩

/-- C6: `chunk_text` terminates (it is a total function here, with the
loop's well-foundedness coming from the forced minimum advance of 1), the
number of iterations of the sliding-window loop, counted by
`chunkLoopSteps`, is bounded by `len(text)`, and the advance
`advanceStep boundary start overlap` (which is
`boundary - start - chunk_overlap` forced to 1 when nonpositive) makes
`start` strictly increase on every iteration. -/
theorem chunker_terminates (text : List Char) (cs co : Nat) (hcs : 0 < cs) :
    chunkLoopSteps text cs co 0 ≤ text.length ∧
    ∀ b s o, s < s + advanceStep b s o := by
  constructor
  · have h := chunkLoopSteps_le text cs co 0
    omega
  · intro b s o
    have := advanceStep_pos b s o
    omega

/-- Witness for `chunker_terminates` at text `"abc"`, chunk_size 1, overlap 0. -/
theorem chunker_terminates_witness :
    0 < 1 ∧
    (chunkLoopSteps ['a', 'b', 'c'] 1 0 0 ≤ (['a', 'b', 'c'] : List Char).length ∧
     ∀ b s o, s < s + advanceStep b s o) :=
  ⟨by decide, chunker_terminates ['a', 'b', 'c'] 1 0 (by decide)⟩

/-- C7: for every input text and valid parameters, the `char_offset`
values of the chunks returned by `chunk_text`, in emission order, are
strictly increasing.  (`chunk_overlap ≥ 0` and `min_chunk_size ≥ 0` are
automatic in `Nat`.) -/
theorem chunk_offsets_strict_mono (text : List Char) (cs co ms : Nat) (hcs : 0 < cs) :
    ((chunk_text text cs co ms).map Chunk.char_offset).Pairwise (· < ·) := by
  rw [← List.chain'_iff_pairwise]
  unfold chunk_text
  split
  · split
    · simp
    · simp
  · exact chunkLoop_offsets text cs co ms 0 [] (by simp) (by simp)

/-- Witness for `chunk_offsets_strict_mono` at text `"abc"`, chunk_size 1. -/
theorem chunk_offsets_strict_mono_witness :
    0 < 1 ∧ ((chunk_text ['a', 'b', 'c'] 1 0 0).map Chunk.char_offset).Pairwise (· < ·) :=
  ⟨by decide, chunk_offsets_strict_mono ['a', 'b', 'c'] 1 0 0 (by decide)⟩

/-- C8: the `chunk_index` values of the list returned by `chunk_text` are
exactly `0, 1, ..., n-1` in emission order (`n` the number of returned
chunks); windows discarded for falling below `min_chunk_size` consume no
index slot, since the index is assigned as the accumulator's length at
emission time. -/
theorem chunk_indices_contiguous (text : List Char) (cs co ms : Nat) (hcs : 0 < cs) :
    (chunk_text text cs co ms).map Chunk.chunk_index
      = List.range (chunk_text text cs co ms).length := by
  unfold chunk_text
  split
  · split
    · simp [List.range_succ]
    · simp
  · exact chunkLoop_indices text cs co ms 0 [] (by simp)

/-- Witness for `chunk_indices_contiguous` at text `"abc"`, chunk_size 1. -/
theorem chunk_indices_contiguous_witness :
    0 < 1 ∧ (chunk_text ['a', 'b', 'c'] 1 0 0).map Chunk.chunk_index
      = List.range (chunk_text ['a', 'b', 'c'] 1 0 0).length :=
  ⟨by decide, chunk_indices_contiguous ['a', 'b', 'c'] 1 0 0 (by decide)⟩

/-- C9: every chunk returned by `chunk_text` has `chunk_length` equal to
the length of its `text` field, in the short-text path, the windowed
path, and the final-remainder path alike. -/
theorem chunk_length_field_correct (text : List Char) (cs co ms : Nat) :
    ∀ c ∈ chunk_text text cs co ms, c.chunk_length = c.text.length := by
  intro c hc
  unfold chunk_text at hc
  split at hc
  · split at hc
    · simp only [List.mem_singleton] at hc
      rw [hc]
    · simp at hc
  · exact chunkLoop_len_eq text cs co ms 0 [] (by simp) c hc

/-- Witness for `chunk_length_field_correct` on the single chunk produced
for text `"a"`. -/
theorem chunk_length_field_correct_witness :
    (⟨0, ['a'], 0, 1⟩ : Chunk) ∈ chunk_text ['a'] 1 0 0 ∧
    (⟨0, ['a'], 0, 1⟩ : Chunk).chunk_length = (⟨0, ['a'], 0, 1⟩ : Chunk).text.length :=
  ⟨by decide, chunk_length_field_correct ['a'] 1 0 0 ⟨0, ['a'], 0, 1⟩ (by decide)⟩

/-- C10: every chunk returned by `chunk_text` has a text of length at
most `chunk_size`: the short path emits the whole text only when it fits,
the word-boundary cut satisfies `boundary ≤ start + chunk_size`, the
hard cut is exactly at `start + chunk_size`, the final remainder has
length at most `chunk_size`, and trimming only shortens. -/
theorem chunk_text_within_size (text : List Char) (cs co ms : Nat) (hcs : 0 < cs) :
    ∀ c ∈ chunk_text text cs co ms, c.text.length ≤ cs := by
  intro c hc
  unfold chunk_text at hc
  by_cases hlen : text.length ≤ cs
  · rw [if_pos hlen] at hc
    split at hc
    · simp only [List.mem_singleton] at hc
      rw [hc]
      exact hlen
    · simp at hc
  · rw [if_neg hlen] at hc
    exact chunkLoop_text_le text cs co ms 0 [] (by simp) c hc

/-- Witness for `chunk_text_within_size` on the single chunk produced for
text `"ab"` with chunk_size 2. -/
theorem chunk_text_within_size_witness :
    0 < 2 ∧ (⟨0, ['a', 'b'], 0, 2⟩ : Chunk).text.length ≤ 2 :=
  ⟨by decide,
   chunk_text_within_size ['a', 'b'] 2 0 0 (by decide) ⟨0, ['a', 'b'], 0, 2⟩ (by decide)⟩

/-- One chunk record read from a chunked JSON payload (the fields of
`payload["chunks"][j]` that load_documents.py reads). -/
structure LoadChunk where
  chunk_index : Nat
  text : List Char
  chunk_length : Nat
  char_offset : Nat
deriving DecidableEq

/-- One chunked JSON payload (the fields load_documents.py reads;
`purpose` is optional there, read with `payload.get("purpose", "unknown")`). -/
structure LoadFile where
  source : List Char
  purpose : Option (List Char)
  raw_filename : List Char
  full_text_length : Nat
  processed_at : List Char
  chunks : List LoadChunk
deriving DecidableEq

/-- One metadata entry appended at load_documents.py lines 132-138. -/
structure IndexMeta where
  chunk_id : Nat
  doc_id : Nat
  chunk_index : Nat
  source : List Char
  purpose : List Char
deriving DecidableEq

/-- Default for a missing `purpose` field, the string `"unknown"`. -/
def unknownPurpose : List Char := ['u', 'n', 'k', 'n', 'o', 'w', 'n']

/-- Embeds the inner chunk-insert loop of load_documents.py lines
118-138: on the freshly recreated table, SQLite AUTOINCREMENT hands out
consecutive row ids, so the chunk inserted while the running id counter
is `chunkId` receives exactly that id (`cur.lastrowid`).  Returns the
texts appended to `all_texts` and the entries appended to `metadata`, in
order. -/
def insertChunks (f : LoadFile) (docId : Nat) :
    List LoadChunk → Nat → List (List Char) × List IndexMeta
  | [], _ => ([], [])
  | c :: cs, chunkId =>
    let r := insertChunks f docId cs (chunkId + 1)
    (c.text :: r.1,
     ⟨chunkId, docId, c.chunk_index, f.source, f.purpose.getD unknownPurpose⟩ :: r.2)

/-- Embeds the per-file loop of load_documents.py lines 100-143: one
document row per file (consecutive `doc_id`s from 1) and one chunk row
per chunk (consecutive `chunk_id`s across all files). -/
def collectLoop : List LoadFile → Nat → Nat → List (List Char) × List IndexMeta
  | [], _, _ => ([], [])
  | f :: fs, docId, chunkId =>
    let r := insertChunks f docId f.chunks chunkId
    let r2 := collectLoop fs (docId + 1) (chunkId + f.chunks.length)
    (r.1 ++ r2.1, r.2 ++ r2.2)

/-- The full collection pass; AUTOINCREMENT starts at 1 on the freshly
recreated tables (`init_db` drops and recreates them on every run). -/
def collect (files : List LoadFile) : List (List Char) × List IndexMeta :=
  collectLoop files 1 1

/-- Embeds `for i in range(0, len(all_texts), batch_size):
all_texts[i : i + batch_size]` (load_documents.py lines 159-160): the
contiguous batches of at most `bs` texts, in order.  For `bs = 0`
Python's `range` raises; this embedding returns `[]`, which `runLoad`
maps to the raising outcome below. -/
def chunkBatches {α : Type} (l : List α) (bs : Nat) : List (List α) :=
  if h : bs = 0 ∨ l.length = 0 then []
  else l.take bs :: chunkBatches (l.drop bs) bs
termination_by l.length
decreasing_by
  push_neg at h
  rw [List.length_drop]
  omega

/-- Embeds one iteration of the encode loop, load_documents.py lines
161-170: on success the returned rows are appended; on failure
(`enc b = none`, i.e. `model.encode` raised) a `len(batch) × dim` block
of zeros is substituted and `len(batch)` is added to the failure count. -/
def embedBatch (enc : List (List Char) → Option (List (List ℚ))) (dim : Nat)
    (b : List (List Char)) : List (List ℚ) × Nat :=
  match enc b with
  | some vs => (vs, 0)
  | none => (List.replicate b.length (List.replicate dim 0), b.length)

/-- Embeds the whole encode loop (load_documents.py lines 155-170): the
stacked embedding matrix (`np.vstack(all_embeddings)`) paired with the
`embedding_failures` counter. -/
def embedAll (enc : List (List Char) → Option (List (List ℚ)))
    (texts : List (List Char)) (bs dim : Nat) : List (List ℚ) × Nat :=
  ((((chunkBatches texts bs).map (embedBatch enc dim)).map Prod.fst).flatten,
   (((chunkBatches texts bs).map (embedBatch enc dim)).map Prod.snd).sum)

/-- Outcome of one load run (`run` of load_documents.py). -/
inductive LoadResult where
  | noFiles : LoadResult
  | raised : LoadResult
  | persisted (index : List (List ℚ)) (metadata : List IndexMeta) (failures : Nat) :
      LoadResult
deriving DecidableEq

/-- Embeds `run` of load_documents.py lines 64-202 with I/O abstracted:
`enc` is the `model.encode` capability (`none` = the call raised) and
`nrm` is the row-wise effect of `faiss.normalize_L2` (the FAISS flat
index stores rows in insertion order, so only its row-wise application
matters for the properties proved here).  When no chunked file exists
the run returns early after recording zero counts (`noFiles`, lines
81-84).  When the batch list is empty — zero chunks collected across all
files, or `batch_size = 0` — the `all_embeddings` list is empty and
`np.vstack([])` at line 181 raises `ValueError` (`raised`): the code has
no empty-matrix guard, and `PipelineTracker.__exit__` does not suppress
the exception.  Otherwise the run persists the normalized matrix and the
metadata list and reports the failure count. -/
def runLoad (enc : List (List Char) → Option (List (List ℚ))) (nrm : List ℚ → List ℚ)
    (files : List LoadFile) (bs dim : Nat) : LoadResult :=
  if files = [] then .noFiles
  else if chunkBatches (collect files).1 bs = [] then .raised
  else
    .persisted (((embedAll enc (collect files).1 bs dim).1).map nrm)
      (collect files).2
      (embedAll enc (collect files).1 bs dim).2

theorem chunkBatches_nil {α : Type} (bs : Nat) : chunkBatches ([] : List α) bs = [] := by
  unfold chunkBatches
  simp

theorem chunkBatches_ne_nil {α : Type} {l : List α} {bs : Nat} (hbs : 0 < bs)
    (hl : l ≠ []) : chunkBatches l bs ≠ [] := by
  unfold chunkBatches
  rw [dif_neg]
  · simp
  · push_neg
    exact ⟨by omega, by simpa [List.length_eq_zero] using hl⟩

theorem flatten_chunkBatches {α : Type} (bs : Nat) (hbs : 0 < bs) (l : List α) :
    (chunkBatches l bs).flatten = l := by
  have H : ∀ n (l : List α), l.length ≤ n → (chunkBatches l bs).flatten = l := by
    intro n
    induction n with
    | zero =>
      intro l hl
      have hnil : l = [] := List.length_eq_zero.mp (by omega)
      subst hnil
      rw [chunkBatches_nil]
      rfl
    | succ n ih =>
      intro l hl
      unfold chunkBatches
      split
      · rename_i h
        rcases h with h | h
        · omega
        · rw [List.length_eq_zero.mp h]
          rfl
      · rename_i h
        push_neg at h
        rw [List.flatten_cons, ih (l.drop bs) (by rw [List.length_drop]; omega)]
        exact List.take_append_drop bs l
  exact H l.length l (Nat.le_refl _)

theorem embedBatch_fst_length (enc : List (List Char) → Option (List (List ℚ)))
    (dim : Nat) (hrc : ∀ b vs, enc b = some vs → vs.length = b.length)
    (b : List (List Char)) : ((embedBatch enc dim b).1).length = b.length := by
  cases henc : enc b with
  | none => simp [embedBatch, henc]
  | some vs => simpa [embedBatch, henc] using hrc b vs henc

theorem embedBatch_fail (enc : List (List Char) → Option (List (List ℚ)))
    (dim : Nat) (b : List (List Char)) (h : enc b = none) :
    (embedBatch enc dim b).1 = List.replicate b.length (List.replicate dim 0) := by
  simp [embedBatch, h]

theorem embedBatch_ok (enc : List (List Char) → Option (List (List ℚ)))
    (dim : Nat) (b : List (List Char)) (vs : List (List ℚ)) (h : enc b = some vs) :
    (embedBatch enc dim b).1 = vs := by
  simp [embedBatch, h]

/-- Positional structure of the stacked matrix: when every per-batch
block has as many rows as its batch has texts, row `bs * j + k` of the
flattened matrix is row `k` of the block computed for batch `j` (which is
`texts[bs*j : bs*j + bs]`). -/
theorem flatten_map_get {α β : Type} (g : List α → List β) (bs : Nat) (hbs : 0 < bs)
    (hg : ∀ b, (g b).length = b.length) :
    ∀ (j : Nat) (l : List α) (k : Nat), bs * j + k < l.length → k < bs →
      (((chunkBatches l bs).map g).flatten)[bs * j + k]?
        = (g ((l.drop (bs * j)).take bs))[k]? := by
  intro j
  induction j with
  | zero =>
    intro l k hjk hk
    simp only [Nat.mul_zero, Nat.zero_add] at hjk ⊢
    have hl : l ≠ [] := by
      intro h
      subst h
      simp at hjk
    unfold chunkBatches
    rw [dif_neg (by push_neg; exact ⟨by omega, by simpa [List.length_eq_zero] using hl⟩)]
    rw [List.map_cons, List.flatten_cons]
    rw [List.getElem?_append_left (by rw [hg, List.length_take]; omega)]
    rw [List.drop_zero]
  | succ j ih =>
    intro l k hjk hk
    have hmul : bs * (j + 1) = bs * j + bs := by ring
    rw [hmul] at hjk ⊢
    have hbslen : bs < l.length := by omega
    have hl : l ≠ [] := by
      intro h
      subst h
      simp at hbslen
    unfold chunkBatches
    rw [dif_neg (by push_neg; exact ⟨by omega, by simpa [List.length_eq_zero] using hl⟩)]
    rw [List.map_cons, List.flatten_cons]
    have hlen0 : (g (l.take bs)).length = bs := by
      rw [hg, List.length_take]
      omega
    rw [List.getElem?_append_right (by rw [hlen0]; omega)]
    have hidx : bs * j + bs + k - (g (l.take bs)).length = bs * j + k := by
      rw [hlen0]
      omega
    rw [hidx]
    rw [ih (l.drop bs) k (by rw [List.length_drop]; omega) hk]
    rw [List.drop_drop]
    have harith : bs + bs * j = bs * j + bs := by omega
    rw [harith]

theorem embedAll_fst_length (enc : List (List Char) → Option (List (List ℚ)))
    (texts : List (List Char)) (bs dim : Nat) (hbs : 0 < bs)
    (hrc : ∀ b vs, enc b = some vs → vs.length = b.length) :
    ((embedAll enc texts bs dim).1).length = texts.length := by
  unfold embedAll
  rw [List.length_flatten, List.map_map, List.map_map]
  have hcongr : (chunkBatches texts bs).map ((List.length ∘ Prod.fst) ∘ embedBatch enc dim)
      = (chunkBatches texts bs).map List.length := by
    apply List.map_congr_left
    intro b _
    exact embedBatch_fst_length enc dim hrc b
  rw [hcongr, ← List.length_flatten, flatten_chunkBatches bs hbs]

theorem embedAll_snd_eq (enc : List (List Char) → Option (List (List ℚ)))
    (texts : List (List Char)) (bs dim : Nat) :
    (embedAll enc texts bs dim).2
      = (((chunkBatches texts bs).filter (fun b => (enc b).isNone)).map List.length).sum := by
  show (((chunkBatches texts bs).map (embedBatch enc dim)).map Prod.snd).sum = _
  generalize chunkBatches texts bs = L
  induction L with
  | nil => simp
  | cons b L ih =>
    rw [List.map_cons, List.map_cons, List.sum_cons, List.filter_cons]
    cases henc : enc b with
    | none =>
      rw [if_pos (by simp [henc])]
      rw [List.map_cons, List.sum_cons, ih]
      simp only [embedBatch, henc]
    | some vs =>
      rw [if_neg (by simp [henc])]
      rw [ih]
      simp only [embedBatch, henc]
      omega

theorem insertChunks_fst (f : LoadFile) (docId : Nat) :
    ∀ (cs : List LoadChunk) (k : Nat),
      (insertChunks f docId cs k).1 = cs.map (fun c => c.text) := by
  intro cs
  induction cs with
  | nil => intro k; rfl
  | cons c cs ih =>
    intro k
    simp only [insertChunks, List.map_cons]
    rw [ih (k + 1)]

theorem insertChunks_snd_length (f : LoadFile) (docId : Nat) :
    ∀ (cs : List LoadChunk) (k : Nat),
      ((insertChunks f docId cs k).2).length = cs.length := by
  intro cs
  induction cs with
  | nil => intro k; rfl
  | cons c cs ih =>
    intro k
    simp only [insertChunks, List.length_cons]
    rw [ih (k + 1)]

theorem insertChunks_snd_get (f : LoadFile) (docId : Nat) :
    ∀ (cs : List LoadChunk) (k j : Nat), j < cs.length →
      ((insertChunks f docId cs k).2)[j]?
        = cs[j]?.map
            (fun c => ⟨k + j, docId, c.chunk_index, f.source, f.purpose.getD unknownPurpose⟩) := by
  intro cs
  induction cs with
  | nil => intro k j hj; simp at hj
  | cons c cs ih =>
    intro k j hj
    cases j with
    | zero => simp [insertChunks]
    | succ j =>
      simp only [insertChunks, List.getElem?_cons_succ]
      rw [ih (k + 1) j (by simpa using hj)]
      have harith : k + 1 + j = k + (j + 1) := by omega
      rw [harith]

theorem collectLoop_fst_length (files : List LoadFile) :
    ∀ (d k : Nat),
      ((collectLoop files d k).1).length
        = ((files.map (fun f => f.chunks.length)).sum) := by
  induction files with
  | nil => intro d k; rfl
  | cons f fs ih =>
    intro d k
    simp only [collectLoop, List.length_append, List.map_cons, List.sum_cons]
    rw [insertChunks_fst, List.length_map, ih (d + 1) (k + f.chunks.length)]

theorem collectLoop_snd_length (files : List LoadFile) :
    ∀ (d k : Nat),
      ((collectLoop files d k).2).length
        = ((files.map (fun f => f.chunks.length)).sum) := by
  induction files with
  | nil => intro d k; rfl
  | cons f fs ih =>
    intro d k
    simp only [collectLoop, List.length_append, List.map_cons, List.sum_cons]
    rw [insertChunks_snd_length, ih (d + 1) (k + f.chunks.length)]

/-- Positional content of the collection pass: the `i`-th text and the
`i`-th metadata entry both come from the chunk at relative position `i`
of the concatenation of per-file chunk lists, the metadata entry's
`chunk_id` continues the running counter `k`, and its `doc_id` is the
file's position offset by `d`. -/
theorem collectLoop_align (files : List LoadFile) :
    ∀ (d k i : Nat), i < ((collectLoop files d k).2).length →
      ∃ fi f c,
        files[fi]? = some f ∧
        (∃ ci, f.chunks[ci]? = some c ∧
          i = (((files.take fi).map (fun g => g.chunks.length)).sum) + ci) ∧
        ((collectLoop files d k).1)[i]? = some c.text ∧
        ((collectLoop files d k).2)[i]?
          = some ⟨k + i, d + fi, c.chunk_index, f.source, f.purpose.getD unknownPurpose⟩ := by
  induction files with
  | nil =>
    intro d k i hi
    simp [collectLoop] at hi
  | cons f fs ih =>
    intro d k i hi
    have hmslen : ((insertChunks f d f.chunks k).2).length = f.chunks.length :=
      insertChunks_snd_length f d f.chunks k
    have htslen : ((insertChunks f d f.chunks k).1).length = f.chunks.length := by
      rw [insertChunks_fst, List.length_map]
    rcases Nat.lt_or_ge i f.chunks.length with hlt | hge
    · refine ⟨0, f, f.chunks[i], by simp, ⟨i, by simp [List.getElem?_eq_getElem hlt], by simp⟩, ?_, ?_⟩
      · show ((insertChunks f d f.chunks k).1 ++ (collectLoop fs (d + 1) (k + f.chunks.length)).1)[i]? = _
        rw [List.getElem?_append_left (by omega)]
        rw [insertChunks_fst, List.getElem?_map, List.getElem?_eq_getElem hlt]
        rfl
      · show ((insertChunks f d f.chunks k).2 ++ (collectLoop fs (d + 1) (k + f.chunks.length)).2)[i]? = _
        rw [List.getElem?_append_left (by omega)]
        rw [insertChunks_snd_get f d f.chunks k i hlt, List.getElem?_eq_getElem hlt]
        simp
    · have hi2 : i - f.chunks.length < ((collectLoop fs (d + 1) (k + f.chunks.length)).2).length := by
        have : ((collectLoop (f :: fs) d k).2).length
            = f.chunks.length + ((collectLoop fs (d + 1) (k + f.chunks.length)).2).length := by
          show ((insertChunks f d f.chunks k).2 ++ _).length = _
          rw [List.length_append, hmslen]
        omega
      obtain ⟨fi, f', c, hf', ⟨ci, hc, hpos⟩, ht, hm⟩ :=
        ih (d + 1) (k + f.chunks.length) (i - f.chunks.length) hi2
      refine ⟨fi + 1, f', c, by simpa using hf', ⟨ci, hc, ?_⟩, ?_, ?_⟩
      · rw [List.take_succ_cons, List.map_cons, List.sum_cons]
        omega
      · show ((insertChunks f d f.chunks k).1 ++ (collectLoop fs (d + 1) (k + f.chunks.length)).1)[i]? = _
        rw [List.getElem?_append_right (by omega), htslen]
        exact ht
      · show ((insertChunks f d f.chunks k).2 ++ (collectLoop fs (d + 1) (k + f.chunks.length)).2)[i]? = _
        rw [List.getElem?_append_right (by omega), hmslen]
        rw [hm]
        have h1 : k + f.chunks.length + (i - f.chunks.length) = k + i := by omega
        have h2 : d + 1 + fi = d + (fi + 1) := by omega
        rw [h1, h2]

theorem embedAll_get (enc : List (List Char) → Option (List (List ℚ)))
    (texts : List (List Char)) (bs dim : Nat) (hbs : 0 < bs)
    (hrc : ∀ b vs, enc b = some vs → vs.length = b.length)
    (j k : Nat) (hjk : bs * j + k < texts.length) (hk : k < bs) :
    ((embedAll enc texts bs dim).1)[bs * j + k]?
      = ((embedBatch enc dim ((texts.drop (bs * j)).take bs)).1)[k]? := by
  show ((((chunkBatches texts bs).map (embedBatch enc dim)).map Prod.fst).flatten)[bs * j + k]? = _
  rw [List.map_map]
  exact flatten_map_get (Prod.fst ∘ embedBatch enc dim) bs hbs
    (fun b => embedBatch_fst_length enc dim hrc b) j texts k hjk hk

/-- C1: after a full load run in which at least one chunk was submitted
for embedding (the collected text list is nonempty), the run persists,
the persisted index holds exactly one vector per submitted chunk text
(zero-vector fallbacks included), the persisted metadata list has the
same length as the vector list, the metadata entry at position `i`
describes the chunk at relative position `i` of the concatenation of
per-file chunk lists in file-iteration order (consecutive `chunk_id`s
from 1, the owning file's 1-based `doc_id`, and that chunk's
`chunk_index`, `source` and `purpose`), the `i`-th collected text is that
same chunk's text, and the vector at row `i = bs*j + k` of the persisted
index is the (row-normalized) `k`-th output row of embedding batch `j`,
whose `k`-th input is exactly the `i`-th collected text. -/
theorem load_alignment (enc : List (List Char) → Option (List (List ℚ)))
    (nrm : List ℚ → List ℚ) (files : List LoadFile) (bs dim : Nat) (hbs : 0 < bs)
    (hrc : ∀ b vs, enc b = some vs → vs.length = b.length)
    (hne : (collect files).1 ≠ []) :
    ∃ V metadata fails,
      runLoad enc nrm files bs dim = LoadResult.persisted V metadata fails ∧
      V.length = (collect files).1.length ∧
      metadata.length = V.length ∧
      (∀ i, i < metadata.length →
        ∃ fi f c,
          files[fi]? = some f ∧
          (∃ ci, f.chunks[ci]? = some c ∧
            i = (((files.take fi).map (fun g => g.chunks.length)).sum) + ci) ∧
          ((collect files).1)[i]? = some c.text ∧
          metadata[i]?
            = some ⟨i + 1, fi + 1, c.chunk_index, f.source, f.purpose.getD unknownPurpose⟩) ∧
      (∀ j k, bs * j + k < (collect files).1.length → k < bs →
        V[bs * j + k]?
          = (((embedBatch enc dim (((collect files).1.drop (bs * j)).take bs)).1).map nrm)[k]? ∧
        (((collect files).1.drop (bs * j)).take bs)[k]? = ((collect files).1)[bs * j + k]?) := by
  have hf : files ≠ [] := by
    intro h
    subst h
    exact hne rfl
  have hbat : chunkBatches (collect files).1 bs ≠ [] := chunkBatches_ne_nil hbs hne
  refine ⟨((embedAll enc (collect files).1 bs dim).1).map nrm, (collect files).2,
    (embedAll enc (collect files).1 bs dim).2, ?_, ?_, ?_, ?_, ?_⟩
  · unfold runLoad
    rw [if_neg hf, if_neg hbat]
  · rw [List.length_map]
    exact embedAll_fst_length enc (collect files).1 bs dim hbs hrc
  · rw [List.length_map, embedAll_fst_length enc (collect files).1 bs dim hbs hrc]
    show ((collectLoop files 1 1).2).length = ((collectLoop files 1 1).1).length
    rw [collectLoop_fst_length, collectLoop_snd_length]
  · intro i hi
    obtain ⟨fi, f, c, h1, h2, h3, h4⟩ := collectLoop_align files 1 1 i hi
    refine ⟨fi, f, c, h1, h2, h3, ?_⟩
    show ((collectLoop files 1 1).2)[i]?
      = some ⟨i + 1, fi + 1, c.chunk_index, f.source, f.purpose.getD unknownPurpose⟩
    rw [h4]
    have e1 : 1 + i = i + 1 := by omega
    have e2 : 1 + fi = fi + 1 := by omega
    rw [e1, e2]
  · intro j k hjk hk
    constructor
    · rw [List.getElem?_map, List.getElem?_map,
        embedAll_get enc (collect files).1 bs dim hbs hrc j k hjk hk]
    · rw [List.getElem?_take_of_lt hk, List.getElem?_drop]

/-- Example inputs for the load-run witnesses. -/
def egFiles : List LoadFile := [⟨['s'], none, ['r'], 0, ['t'], [⟨0, ['h', 'i'], 2, 0⟩]⟩]

/-- Example all-success embedding capability: one 1-entry row per text. -/
def egEnc : List (List Char) → Option (List (List ℚ)) := fun b => some (b.map (fun _ => [1]))

/-- Example always-failing embedding capability. -/
def egEncFail : List (List Char) → Option (List (List ℚ)) := fun _ => none

/-- Witness for `load_alignment` on one file with one chunk. -/
theorem load_alignment_witness :
    0 < 32 ∧
    (∀ b vs, egEnc b = some vs → vs.length = b.length) ∧
    (collect egFiles).1 ≠ [] ∧
    (∃ V metadata fails,
      runLoad egEnc id egFiles 32 384 = LoadResult.persisted V metadata fails ∧
      V.length = (collect egFiles).1.length ∧
      metadata.length = V.length ∧
      (∀ i, i < metadata.length →
        ∃ fi f c,
          egFiles[fi]? = some f ∧
          (∃ ci, f.chunks[ci]? = some c ∧
            i = (((egFiles.take fi).map (fun g => g.chunks.length)).sum) + ci) ∧
          ((collect egFiles).1)[i]? = some c.text ∧
          metadata[i]?
            = some ⟨i + 1, fi + 1, c.chunk_index, f.source, f.purpose.getD unknownPurpose⟩) ∧
      (∀ j k, 32 * j + k < (collect egFiles).1.length → k < 32 →
        V[32 * j + k]?
          = (((embedBatch egEnc 384 (((collect egFiles).1.drop (32 * j)).take 32)).1).map id)[k]? ∧
        (((collect egFiles).1.drop (32 * j)).take 32)[k]? = ((collect egFiles).1)[32 * j + k]?)) :=
  ⟨by decide,
   fun b vs h => by
     have h2 : b.map (fun _ => ([1] : List ℚ)) = vs := by simpa [egEnc] using h
     rw [← h2]
     simp,
   by decide,
   load_alignment egEnc id egFiles 32 384 (by decide)
     (fun b vs h => by
       have h2 : b.map (fun _ => ([1] : List ℚ)) = vs := by simpa [egEnc] using h
       rw [← h2]
       simp)
     (by decide)⟩

/-- C5: for a batch whose embedding call fails the run is not aborted —
the run's matrix still has one row per submitted text (so no later
chunk's position shifts), the failure metric is exactly the total size of
the failed batches, the substituted block for a failed batch is a
`len(batch) × dim` block of zeros sitting at that batch's position (each
row of the matrix at position `bs*j + k` inside a failed batch `j` is the
zero vector of the configured dimension), and every row whose own batch
succeeded is identical to the corresponding row of the all-success run
(an encoder `enc'` that succeeds everywhere and agrees with `enc`
wherever `enc` succeeds). -/
theorem batch_failure_isolated (enc enc' : List (List Char) → Option (List (List ℚ)))
    (texts : List (List Char)) (bs dim : Nat) (hbs : 0 < bs)
    (hrc : ∀ b vs, enc b = some vs → vs.length = b.length)
    (hrc' : ∀ b vs, enc' b = some vs → vs.length = b.length)
    (hagree : ∀ b, (enc b).isSome → enc' b = enc b)
    (hok : ∀ b, (enc' b).isSome) :
    ((embedAll enc texts bs dim).1).length = texts.length ∧
    ((embedAll enc' texts bs dim).1).length = texts.length ∧
    (embedAll enc texts bs dim).2
      = (((chunkBatches texts bs).filter (fun b => (enc b).isNone)).map List.length).sum ∧
    (∀ b, enc b = none →
      (embedBatch enc dim b).1 = List.replicate b.length (List.replicate dim 0)) ∧
    (∀ j k, bs * j + k < texts.length → k < bs →
      (enc ((texts.drop (bs * j)).take bs) = none →
        ((embedAll enc texts bs dim).1)[bs * j + k]? = some (List.replicate dim 0)) ∧
      ((enc ((texts.drop (bs * j)).take bs)).isSome →
        ((embedAll enc texts bs dim).1)[bs * j + k]?
          = ((embedAll enc' texts bs dim).1)[bs * j + k]?)) := by
  refine ⟨embedAll_fst_length enc texts bs dim hbs hrc,
    embedAll_fst_length enc' texts bs dim hbs hrc',
    embedAll_snd_eq enc texts bs dim,
    fun b h => embedBatch_fail enc dim b h, ?_⟩
  intro j k hjk hk
  constructor
  · intro hfail
    rw [embedAll_get enc texts bs dim hbs hrc j k hjk hk,
      embedBatch_fail enc dim _ hfail]
    have hkb : k < ((texts.drop (bs * j)).take bs).length := by
      rw [List.length_take, List.length_drop]
      omega
    rw [List.getElem?_replicate_of_lt hkb]
  · intro hsome
    obtain ⟨vs, hvs⟩ := Option.isSome_iff_exists.mp hsome
    rw [embedAll_get enc texts bs dim hbs hrc j k hjk hk,
      embedAll_get enc' texts bs dim hbs hrc' j k hjk hk,
      embedBatch_ok enc dim _ vs hvs,
      embedBatch_ok enc' dim _ vs (by rw [hagree _ hsome]; exact hvs)]

/-- Witness for `batch_failure_isolated`: every batch of the single-text
run fails under `egEncFail`, and `egEnc` is the all-success run. -/
theorem batch_failure_isolated_witness :
    0 < 1 ∧
    (∀ b vs, egEncFail b = some vs → vs.length = b.length) ∧
    (∀ b vs, egEnc b = some vs → vs.length = b.length) ∧
    (∀ b, (egEncFail b).isSome → egEnc b = egEncFail b) ∧
    (∀ b, (egEnc b).isSome) ∧
    (((embedAll egEncFail [['a']] 1 2).1).length = ([['a']] : List (List Char)).length ∧
     ((embedAll egEnc [['a']] 1 2).1).length = ([['a']] : List (List Char)).length ∧
     (embedAll egEncFail [['a']] 1 2).2
       = (((chunkBatches [['a']] 1).filter (fun b => (egEncFail b).isNone)).map List.length).sum ∧
     (∀ b, egEncFail b = none →
       (embedBatch egEncFail 2 b).1 = List.replicate b.length (List.replicate 2 0)) ∧
     (∀ j k, 1 * j + k < ([['a']] : List (List Char)).length → k < 1 →
       (egEncFail ((([['a']] : List (List Char)).drop (1 * j)).take 1) = none →
         ((embedAll egEncFail [['a']] 1 2).1)[1 * j + k]? = some (List.replicate 2 0)) ∧
       ((egEncFail ((([['a']] : List (List Char)).drop (1 * j)).take 1)).isSome →
         ((embedAll egEncFail [['a']] 1 2).1)[1 * j + k]?
           = ((embedAll egEnc [['a']] 1 2).1)[1 * j + k]?))) :=
  ⟨by decide,
   fun b vs h => by simp [egEncFail] at h,
   fun b vs h => by
     have h2 : b.map (fun _ => ([1] : List ℚ)) = vs := by simpa [egEnc] using h
     rw [← h2]
     simp,
   fun b h => by simp [egEncFail] at h,
   fun b => by simp [egEnc],
   batch_failure_isolated egEncFail egEnc [['a']] 1 2 (by decide)
     (fun b vs h => by simp [egEncFail] at h)
     (fun b vs h => by
       have h2 : b.map (fun _ => ([1] : List ℚ)) = vs := by simpa [egEnc] using h
       rw [← h2]
       simp)
     (fun b h => by simp [egEncFail] at h)
     (fun b => by simp [egEnc])⟩

/-- A chunked file whose chunk list is empty. -/
def egEmptyFile : LoadFile := ⟨['s'], none, ['r'], 0, ['t'], []⟩

/-- C2 (evaluating the code at the failing input): with at least one
chunked input file but zero chunks collected across all files, the batch
loop never runs, `all_embeddings` stays empty, and the run reaches
`np.vstack([])`, which raises `ValueError` — it does not skip persistence
gracefully and does not report zero vectors (`tracker.record` on line 197
is never reached, and `PipelineTracker.__exit__` re-raises). -/
theorem empty_run_raises :
    runLoad egEncFail id [egEmptyFile] 32 384 = LoadResult.raised := by
  have hc : chunkBatches (collect [egEmptyFile]).1 32 = [] := by
    rw [show (collect [egEmptyFile]).1 = [] from rfl]
    exact chunkBatches_nil 32
  unfold runLoad
  rw [if_neg (by simp), if_pos hc]

end AcademicAI
